import Mathlib

/-!
A verification development for the delb node-tree data model: the node
hierarchy (tag, text, comment, processing-instruction nodes as first-class
siblings), the mutation engine, the filter/traversal engine, the builder,
the serializer, and the fetch-or-create query mode.

The Python implementation itself is not part of the provided sources (only
its documentation, changelog and tests are), so the definitions below are
modelled from the specification's description of the data model and the
operations' contracts.
-/

namespace Delb

/-- Modelled from the spec: the fundamental polymorphic unit, a closed sum
over the variants Tag, Text, Comment and ProcessingInstruction.  A Tag node
carries a name, an ordered attribute sequence and an ordered child
sequence; a Text node carries character data; a Comment node a payload; a
processing instruction a target and a payload. -/
inductive Node where
  | tag (name : String) (attributes : List (String × String)) (children : List Node)
  | text (content : String)
  | comment (content : String)
  | pi (target : String) (content : String)

/-- Whether a node is a Text node. -/
def Node.isText : Node → Bool
  | .text _ => true
  | _ => false

/-- Whether a node is a Tag node. -/
def Node.isTag : Node → Bool
  | .tag _ _ _ => true
  | _ => false

/-- Whether a node is a Comment or ProcessingInstruction node. -/
def Node.isCommentOrPi : Node → Bool
  | .comment _ => true
  | .pi _ _ => true
  | _ => false

/-- The child sequence of a node; non-Tag nodes report an empty sequence,
not an error. -/
def Node.childList : Node → List Node
  | .tag _ _ cs => cs
  | _ => []

/-- Whether the head of a sibling list is a Text node. -/
def headText : List Node → Bool
  | n :: _ => n.isText
  | [] => false

/-- Invariant 3 on one sibling sequence: no two adjacent entries are both
Text nodes. -/
def noAdjB : List Node → Bool
  | a :: b :: rest => !(a.isText && b.isText) && noAdjB (b :: rest)
  | _ => true

/-- Modelled from the spec: the single choke point through which all
structural mutation funnels — any operation that would produce adjacent
Text-node siblings merges them into one Text node with concatenated
content. -/
def mergeAdjacentText : List Node → List Node
  | [] => []
  | Node.text s :: rest =>
      match mergeAdjacentText rest with
      | Node.text s2 :: r => Node.text (s ++ s2) :: r
      | r => Node.text s :: r
  | n :: rest => n :: mergeAdjacentText rest

theorem noAdjB_cons (x : Node) (r : List Node) :
    noAdjB (x :: r) = (!(x.isText && headText r) && noAdjB r) := by
  cases r with
  | nil => simp [noAdjB, headText]
  | cons b rest => simp [noAdjB, headText]

theorem merge_headText (l : List Node) :
    headText (mergeAdjacentText l) = headText l := by
  induction l with
  | nil => rfl
  | cons n rest ih =>
    cases n with
    | text s =>
      simp only [mergeAdjacentText]
      cases h : mergeAdjacentText rest with
      | nil => simp [headText, Node.isText]
      | cons m r =>
        cases m <;> simp [headText, Node.isText]
    | tag nm a cs => simp [mergeAdjacentText, headText]
    | comment s => simp [mergeAdjacentText, headText]
    | pi t s => simp [mergeAdjacentText, headText]

theorem merge_noAdjB (l : List Node) : noAdjB (mergeAdjacentText l) = true := by
  induction l with
  | nil => rfl
  | cons n rest ih =>
    cases n with
    | text s =>
      simp only [mergeAdjacentText]
      cases h : mergeAdjacentText rest with
      | nil => simp [noAdjB]
      | cons m r =>
        rw [h] at ih
        cases m with
        | text s2 =>
          rw [noAdjB_cons] at ih ⊢
          simp only [Node.isText] at ih ⊢
          exact ih
        | tag nm a cs =>
          rw [noAdjB_cons, noAdjB_cons] at *
          simp only [Node.isText, headText] at ih ⊢
          simpa using ih
        | comment s2 =>
          rw [noAdjB_cons, noAdjB_cons] at *
          simp only [Node.isText, headText] at ih ⊢
          simpa using ih
        | pi t s2 =>
          rw [noAdjB_cons, noAdjB_cons] at *
          simp only [Node.isText, headText] at ih ⊢
          simpa using ih
    | tag nm a cs =>
      simp only [mergeAdjacentText]
      rw [noAdjB_cons, merge_headText]
      simp [Node.isText, ih]
    | comment s =>
      simp only [mergeAdjacentText]
      rw [noAdjB_cons, merge_headText]
      simp [Node.isText, ih]
    | pi t s =>
      simp only [mergeAdjacentText]
      rw [noAdjB_cons, merge_headText]
      simp [Node.isText, ih]

theorem merge_of_noAdjB (l : List Node) (h : noAdjB l = true) :
    mergeAdjacentText l = l := by
  induction l with
  | nil => rfl
  | cons n rest ih =>
    rw [noAdjB_cons] at h
    have h2 : noAdjB rest = true := by
      cases hr : noAdjB rest
      · simp [hr] at h
      · rfl
    have hmr : mergeAdjacentText rest = rest := ih h2
    cases n with
    | text s =>
      have hh : headText rest = false := by
        cases hht : headText rest
        · rfl
        · simp [Node.isText, hht] at h
      simp only [mergeAdjacentText, hmr]
      cases rest with
      | nil => rfl
      | cons m r =>
        cases m with
        | text s2 => simp [headText, Node.isText] at hh
        | tag nm a cs => rfl
        | comment s2 => rfl
        | pi t s2 => rfl
    | tag nm a cs => simp [mergeAdjacentText, hmr]
    | comment s => simp [mergeAdjacentText, hmr]
    | pi t s => simp [mergeAdjacentText, hmr]

mutual

/-- Invariant 3 over a whole subtree: every Tag node's child sequence has
no two adjacent Text nodes. -/
def treeInvB : Node → Bool
  | .tag _ _ cs => noAdjB cs && forestInvB cs
  | _ => true

/-- `treeInvB` for every tree of a forest. -/
def forestInvB : List Node → Bool
  | [] => true
  | c :: cs => treeInvB c && forestInvB cs

end

theorem forestInvB_append (l1 l2 : List Node) :
    forestInvB (l1 ++ l2) = (forestInvB l1 && forestInvB l2) := by
  induction l1 with
  | nil => simp [forestInvB]
  | cons c cs ih => simp [forestInvB, ih, Bool.and_assoc]

theorem forestInvB_mem {l : List Node} (h : forestInvB l = true) :
    ∀ c ∈ l, treeInvB c = true := by
  induction l with
  | nil => intro c hc; simp at hc
  | cons x xs ih =>
    simp only [forestInvB, Bool.and_eq_true] at h
    intro c hc
    rcases List.mem_cons.mp hc with h1 | h2
    · exact h1 ▸ h.1
    · exact ih h.2 c h2

theorem forestInvB_of_mem {l : List Node} (h : ∀ c ∈ l, treeInvB c = true) :
    forestInvB l = true := by
  induction l with
  | nil => rfl
  | cons x xs ih =>
    simp only [forestInvB, Bool.and_eq_true]
    exact ⟨h x (List.mem_cons_self x xs), ih fun c hc => h c (List.mem_cons_of_mem x hc)⟩

theorem merge_forestInvB {l : List Node} (h : forestInvB l = true) :
    forestInvB (mergeAdjacentText l) = true := by
  induction l with
  | nil => rfl
  | cons n rest ih =>
    simp only [forestInvB, Bool.and_eq_true] at h
    have ih2 := ih h.2
    cases n with
    | text s =>
      simp only [mergeAdjacentText]
      cases hm : mergeAdjacentText rest with
      | nil => simp [forestInvB, treeInvB]
      | cons m r =>
        rw [hm] at ih2
        simp only [forestInvB, Bool.and_eq_true] at ih2
        cases m with
        | text s2 => simp [forestInvB, treeInvB, ih2.2]
        | tag nm a cs =>
          simp only [forestInvB, Bool.and_eq_true]
          exact ⟨rfl, ih2.1, ih2.2⟩
        | comment s2 =>
          simp only [forestInvB, Bool.and_eq_true]
          exact ⟨rfl, ih2.1, ih2.2⟩
        | pi t s2 =>
          simp only [forestInvB, Bool.and_eq_true]
          exact ⟨rfl, ih2.1, ih2.2⟩
    | tag nm a cs => simp [mergeAdjacentText, forestInvB, h.1, ih2]
    | comment s => simp [mergeAdjacentText, forestInvB, h.1, ih2]
    | pi t s => simp [mergeAdjacentText, forestInvB, h.1, ih2]

/-- Modelled from the spec: the two error conditions of the core — a
caller programming error (`invalidOperation`) and a fatal build error
(`parsingError`). -/
inductive Err where
  | invalidOperation
  | parsingError
deriving Repr, DecidableEq

/-- Modelled from the spec: `insert_children(parent, index, nodes...)`.
Each argument node carries the flag whether it currently has a parent;
inserting an attached node, or an index out of the current bounds of the
child sequence, is an `InvalidOperation`.  Otherwise the nodes are placed
at the index and Text-node merging is re-applied at both boundaries. -/
def insertChildren (cs : List Node) (i : Nat) (args : List (Node × Bool)) :
    Except Err (List Node) :=
  if args.any (fun a => a.2) then .error .invalidOperation
  else if cs.length < i then .error .invalidOperation
  else .ok (mergeAdjacentText (cs.take i ++ args.map Prod.fst ++ cs.drop i))

/-- Insertion of parentless nodes at an index of a child sequence. -/
def opInsertL (i : Nat) (ns : List Node) (cs : List Node) : Except Err (List Node) :=
  insertChildren cs i (ns.map (fun n => (n, false)))

/-- Modelled from the spec: `detach` of the child at an index; with
`retain` the detached node's children are spliced into its former position
preserving their relative order, and adjacent-Text-node merging is
re-applied at the splice boundaries. -/
def opDetachL (i : Nat) (retain : Bool) (cs : List Node) : Except Err (List Node) :=
  match cs[i]? with
  | some c =>
      .ok (mergeAdjacentText (cs.take i ++ (if retain then c.childList else []) ++ cs.drop (i + 1)))
  | none => .error .invalidOperation

/-- Modelled from the spec: `replace(old, new_nodes...)` — insertion at
old's index followed by detaching old, atomic with respect to the
invariants. -/
def opReplaceL (i : Nat) (ns : List Node) (cs : List Node) : Except Err (List Node) :=
  match cs[i]? with
  | some _ => .ok (mergeAdjacentText (cs.take i ++ ns ++ cs.drop (i + 1)))
  | none => .error .invalidOperation

/-- Modelled from the spec: the builder's handling of a character-data
event — a Text node is appended under the current context and merged with
an adjacent Text sibling. -/
def opCharDataL (s : String) (cs : List Node) : Except Err (List Node) :=
  .ok (mergeAdjacentText (cs ++ [Node.text s]))

/-- Apply an operation to the child sequence of the Tag node reached by
a path of child indices; the subtree is rebuilt along the path. -/
def modifyChildrenAt : Node → List Nat → (List Node → Except Err (List Node)) → Except Err Node
  | .tag n a cs, [], f => (f cs).map (fun cs' => .tag n a cs')
  | .tag n a cs, i :: p, f =>
      match cs[i]? with
      | some c => (modifyChildrenAt c p f).map (fun c' => .tag n a (cs.set i c'))
      | none => .error .invalidOperation
  | _, _, _ => .error .invalidOperation

/-- Modelled from the spec: the mutation operations of the Mutation
Engine and the builder's character-data event, each addressed at the Tag
node reached by a path of child indices; `detachRootOp` detaches the sole
root without replacement. -/
inductive Op where
  | insertChildrenOp (path : List Nat) (index : Nat) (nodes : List Node)
  | appendChildrenOp (path : List Nat) (nodes : List Node)
  | prependChildrenOp (path : List Nat) (nodes : List Node)
  | detachOp (path : List Nat) (index : Nat) (retain : Bool)
  | replaceOp (path : List Nat) (index : Nat) (nodes : List Node)
  | charDataOp (path : List Nat) (content : String)
  | detachRootOp

/-- Run one mutation operation against the tree rooted at `t`. -/
def applyOp (t : Node) : Op → Except Err Node
  | .insertChildrenOp p i ns => modifyChildrenAt t p (opInsertL i ns)
  | .appendChildrenOp p ns => modifyChildrenAt t p (fun cs => opInsertL cs.length ns cs)
  | .prependChildrenOp p ns => modifyChildrenAt t p (opInsertL 0 ns)
  | .detachOp p i r => modifyChildrenAt t p (opDetachL i r)
  | .replaceOp p i ns => modifyChildrenAt t p (opReplaceL i ns)
  | .charDataOp p s => modifyChildrenAt t p (opCharDataL s)
  | .detachRootOp => .error .invalidOperation

/-- Modelled from the spec: the state of the tree after a call — on an
`InvalidOperation` the error is reported synchronously and the tree is
left exactly as it was (validate-then-commit, no partial mutation). -/
def applyOpState (t : Node) (op : Op) : Node :=
  match applyOp t op with
  | .ok t' => t'
  | .error _ => t

/-- A well-formed operation argument: every node handed to an insertion
style operation itself satisfies the subtree invariant. -/
def opWFB : Op → Bool
  | .insertChildrenOp _ _ ns => forestInvB ns
  | .appendChildrenOp _ ns => forestInvB ns
  | .prependChildrenOp _ ns => forestInvB ns
  | .replaceOp _ _ ns => forestInvB ns
  | _ => true

theorem forestInvB_take (l : List Node) (i : Nat) (h : forestInvB l = true) :
    forestInvB (l.take i) = true :=
  forestInvB_of_mem fun c hc => forestInvB_mem h c (List.mem_of_mem_take hc)

theorem forestInvB_drop (l : List Node) (i : Nat) (h : forestInvB l = true) :
    forestInvB (l.drop i) = true :=
  forestInvB_of_mem fun c hc => forestInvB_mem h c (List.mem_of_mem_drop hc)

theorem childList_forestInvB (c : Node) (h : treeInvB c = true) :
    forestInvB c.childList = true := by
  cases c with
  | tag n a cs =>
    simp only [treeInvB, Bool.and_eq_true] at h
    exact h.2
  | text s => rfl
  | comment s => rfl
  | pi t s => rfl

theorem headText_set (l : List Node) (i : Nat) (c c' : Node)
    (hget : l[i]? = some c) (hit : c'.isText = c.isText) :
    headText (l.set i c') = headText l := by
  cases l with
  | nil => simp [List.set]
  | cons x r =>
    cases i with
    | zero =>
      simp only [List.getElem?_cons_zero, Option.some.injEq] at hget
      subst hget
      simp [List.set, headText, hit]
    | succ n => simp [List.set, headText]

theorem noAdjB_set (l : List Node) (i : Nat) (c c' : Node)
    (hget : l[i]? = some c) (hit : c'.isText = c.isText) (h : noAdjB l = true) :
    noAdjB (l.set i c') = true := by
  induction l generalizing i with
  | nil => cases i <;> exact h
  | cons x r ih =>
    rw [noAdjB_cons, Bool.and_eq_true] at h
    cases i with
    | zero =>
      simp only [List.getElem?_cons_zero, Option.some.injEq] at hget
      subst hget
      simp only [List.set]
      rw [noAdjB_cons, Bool.and_eq_true]
      exact ⟨by rw [hit]; exact h.1, h.2⟩
    | succ n =>
      simp only [List.getElem?_cons_succ] at hget
      simp only [List.set]
      rw [noAdjB_cons, Bool.and_eq_true]
      refine ⟨?_, ih n hget h.2⟩
      rw [headText_set r n c c' hget hit]
      exact h.1

theorem forestInvB_set (l : List Node) (i : Nat) (c' : Node)
    (h : forestInvB l = true) (hc : treeInvB c' = true) :
    forestInvB (l.set i c') = true := by
  refine forestInvB_of_mem fun x hx => ?_
  rcases List.mem_or_eq_of_mem_set hx with h1 | h2
  · exact forestInvB_mem h x h1
  · exact h2 ▸ hc

theorem modify_ok_shape (t : Node) (p : List Nat)
    (f : List Node → Except Err (List Node)) (t' : Node)
    (h : modifyChildrenAt t p f = .ok t') :
    ∃ n a cs cs', t = .tag n a cs ∧ t' = .tag n a cs' := by
  cases t with
  | tag n a cs =>
    cases p with
    | nil =>
      simp only [modifyChildrenAt] at h
      cases hf : f cs with
      | ok cs' =>
        rw [hf] at h
        simp only [Except.map] at h
        exact ⟨n, a, cs, cs', rfl, by cases h; rfl⟩
      | error e => rw [hf] at h; simp [Except.map] at h
    | cons i pr =>
      simp only [modifyChildrenAt] at h
      cases hg : cs[i]? with
      | some c =>
        simp only [hg] at h
        cases hm : modifyChildrenAt c pr f with
        | ok c' =>
          simp only [hm, Except.map] at h
          injection h with h2
          exact ⟨n, a, cs, cs.set i c', rfl, h2.symm⟩
        | error e => simp [hm, Except.map] at h
      | none => simp only [hg] at h; simp at h
  | text s => simp [modifyChildrenAt] at h
  | comment s => simp [modifyChildrenAt] at h
  | pi tg s => simp [modifyChildrenAt] at h

theorem modify_preserves (p : List Nat) (t : Node)
    (f : List Node → Except Err (List Node))
    (hf : ∀ cs cs', forestInvB cs = true → f cs = .ok cs' →
          noAdjB cs' = true ∧ forestInvB cs' = true)
    (ht : treeInvB t = true) (t' : Node)
    (h : modifyChildrenAt t p f = .ok t') : treeInvB t' = true := by
  induction p generalizing t t' with
  | nil =>
    cases t with
    | tag n a cs =>
      simp only [treeInvB, Bool.and_eq_true] at ht
      simp only [modifyChildrenAt] at h
      cases hfc : f cs with
      | ok cs' =>
        rw [hfc] at h
        simp only [Except.map] at h
        cases h
        have := hf cs cs' ht.2 hfc
        simp [treeInvB, this.1, this.2]
      | error e => rw [hfc] at h; simp [Except.map] at h
    | text s => simp [modifyChildrenAt] at h
    | comment s => simp [modifyChildrenAt] at h
    | pi tg s => simp [modifyChildrenAt] at h
  | cons i pr ih =>
    cases t with
    | tag n a cs =>
      simp only [treeInvB, Bool.and_eq_true] at ht
      simp only [modifyChildrenAt] at h
      cases hg : cs[i]? with
      | some c =>
        simp only [hg] at h
        cases hm : modifyChildrenAt c pr f with
        | ok c' =>
          simp only [hm, Except.map] at h
          injection h with h2
          subst h2
          have hcmem : c ∈ cs := List.getElem?_mem hg
          have hc : treeInvB c = true := forestInvB_mem ht.2 c hcmem
          have hc' : treeInvB c' = true := ih c hc c' hm
          obtain ⟨n2, a2, cs2, cs2', hceq, hc'eq⟩ := modify_ok_shape c pr f c' hm
          have hit : c'.isText = c.isText := by
            rw [hceq, hc'eq]; rfl
          simp only [treeInvB, Bool.and_eq_true]
          exact ⟨noAdjB_set cs i c c' hg hit ht.1, forestInvB_set cs i c' ht.2 hc'⟩
        | error e => simp [hm, Except.map] at h
      | none => simp only [hg] at h; simp at h
    | text s => simp [modifyChildrenAt] at h
    | comment s => simp [modifyChildrenAt] at h
    | pi tg s => simp [modifyChildrenAt] at h

theorem opInsertL_inv (i : Nat) (ns : List Node) (hns : forestInvB ns = true) :
    ∀ cs cs', forestInvB cs = true → opInsertL i ns cs = .ok cs' →
      noAdjB cs' = true ∧ forestInvB cs' = true := by
  intro cs cs' hcs h
  simp only [opInsertL, insertChildren] at h
  have hany : (ns.map (fun n => (n, false))).any (fun a => a.2) = false := by
    simp
  rw [hany] at h
  simp only [Bool.false_eq_true, if_false] at h
  by_cases hlen : cs.length < i
  · rw [if_pos hlen] at h
    simp at h
  · rw [if_neg hlen] at h
    injection h with h2
    subst h2
    have hmap : (ns.map (fun n => (n, false))).map Prod.fst = ns := by
      simp [List.map_map, Function.comp_def]
    rw [hmap]
    refine ⟨merge_noAdjB _, merge_forestInvB ?_⟩
    rw [forestInvB_append, forestInvB_append]
    simp [forestInvB_take cs i hcs, forestInvB_drop cs i hcs, hns]

theorem opDetachL_inv (i : Nat) (r : Bool) :
    ∀ cs cs', forestInvB cs = true → opDetachL i r cs = .ok cs' →
      noAdjB cs' = true ∧ forestInvB cs' = true := by
  intro cs cs' hcs h
  simp only [opDetachL] at h
  cases hg : cs[i]? with
  | some c =>
    simp only [hg] at h
    injection h with h2
    subst h2
    refine ⟨merge_noAdjB _, merge_forestInvB ?_⟩
    rw [forestInvB_append, forestInvB_append]
    have hc : treeInvB c = true := forestInvB_mem hcs c (List.getElem?_mem hg)
    have hret : forestInvB (if r then c.childList else []) = true := by
      cases r with
      | true => simpa using childList_forestInvB c hc
      | false => rfl
    simp [forestInvB_take cs i hcs, forestInvB_drop cs (i + 1) hcs, hret]
  | none => simp [hg] at h

theorem opReplaceL_inv (i : Nat) (ns : List Node) (hns : forestInvB ns = true) :
    ∀ cs cs', forestInvB cs = true → opReplaceL i ns cs = .ok cs' →
      noAdjB cs' = true ∧ forestInvB cs' = true := by
  intro cs cs' hcs h
  simp only [opReplaceL] at h
  cases hg : cs[i]? with
  | some c =>
    simp only [hg] at h
    injection h with h2
    subst h2
    refine ⟨merge_noAdjB _, merge_forestInvB ?_⟩
    rw [forestInvB_append, forestInvB_append]
    simp [forestInvB_take cs i hcs, forestInvB_drop cs (i + 1) hcs, hns]
  | none => simp [hg] at h

theorem opCharDataL_inv (s : String) :
    ∀ cs cs', forestInvB cs = true → opCharDataL s cs = .ok cs' →
      noAdjB cs' = true ∧ forestInvB cs' = true := by
  intro cs cs' hcs h
  simp only [opCharDataL] at h
  injection h with h2
  subst h2
  refine ⟨merge_noAdjB _, merge_forestInvB ?_⟩
  rw [forestInvB_append]
  simp [hcs, forestInvB, treeInvB]

theorem applyOpState_inv (t : Node) (op : Op) (ht : treeInvB t = true)
    (hop : opWFB op = true) : treeInvB (applyOpState t op) = true := by
  cases op with
  | insertChildrenOp p i ns =>
    simp only [applyOpState, applyOp]
    cases h : modifyChildrenAt t p (opInsertL i ns) with
    | ok t' => exact modify_preserves p t _ (opInsertL_inv i ns hop) ht t' h
    | error e => exact ht
  | appendChildrenOp p ns =>
    simp only [applyOpState, applyOp]
    cases h : modifyChildrenAt t p (fun cs => opInsertL cs.length ns cs) with
    | ok t' =>
      refine modify_preserves p t _ ?_ ht t' h
      intro cs cs' hcs hok
      exact opInsertL_inv cs.length ns hop cs cs' hcs hok
    | error e => exact ht
  | prependChildrenOp p ns =>
    simp only [applyOpState, applyOp]
    cases h : modifyChildrenAt t p (opInsertL 0 ns) with
    | ok t' => exact modify_preserves p t _ (opInsertL_inv 0 ns hop) ht t' h
    | error e => exact ht
  | detachOp p i r =>
    simp only [applyOpState, applyOp]
    cases h : modifyChildrenAt t p (opDetachL i r) with
    | ok t' => exact modify_preserves p t _ (opDetachL_inv i r) ht t' h
    | error e => exact ht
  | replaceOp p i ns =>
    simp only [applyOpState, applyOp]
    cases h : modifyChildrenAt t p (opReplaceL i ns) with
    | ok t' => exact modify_preserves p t _ (opReplaceL_inv i ns hop) ht t' h
    | error e => exact ht
  | charDataOp p s =>
    simp only [applyOpState, applyOp]
    cases h : modifyChildrenAt t p (opCharDataL s) with
    | ok t' => exact modify_preserves p t _ (opCharDataL_inv s) ht t' h
    | error e => exact ht
  | detachRootOp => exact ht

theorem merge_text_concat (a b : String) (rest : List Node) :
    mergeAdjacentText (Node.text a :: Node.text b :: rest) =
      mergeAdjacentText (Node.text (a ++ b) :: rest) := by
  simp only [mergeAdjacentText]
  cases h : mergeAdjacentText rest with
  | nil => simp [String.append_assoc]
  | cons m r => cases m <;> simp [String.append_assoc]

/-- C1: for every tree satisfying the subtree invariant and every sequence
of well-formed mutation operations (insert/append/prepend children,
detach with or without retained children, replace, builder character-data
events), after the operations complete no Tag node's child sequence
contains two consecutive Text nodes — and since this holds for every
sequence, it holds for every prefix, i.e. after each operation; moreover
two adjacent Text nodes are merged into one whose content is the
concatenation of theirs. -/
theorem claim1_no_adjacent_text_invariant (ops : List Op) (t : Node)
    (ht : treeInvB t = true) (hops : ∀ op ∈ ops, opWFB op = true) :
    treeInvB (ops.foldl applyOpState t) = true ∧
      ∀ a b rest, mergeAdjacentText (Node.text a :: Node.text b :: rest) =
        mergeAdjacentText (Node.text (a ++ b) :: rest) := by
  refine ⟨?_, fun a b rest => merge_text_concat a b rest⟩
  induction ops generalizing t with
  | nil => exact ht
  | cons op rest ih =>
    simp only [List.foldl]
    exact ih (applyOpState t op)
      (applyOpState_inv t op ht (hops op (List.mem_cons_self op rest)))
      (fun o ho => hops o (List.mem_cons_of_mem op ho))

/-- Witness for C1 at a concrete tree and operation sequence. -/
theorem claim1_no_adjacent_text_invariant_witness :
    treeInvB ([Op.insertChildrenOp [] 1 [Node.text "y"],
        Op.detachOp [] 0 false].foldl applyOpState
        (Node.tag "a" [] [Node.text "x", Node.tag "b" [] []])) = true ∧
      ∀ a b rest, mergeAdjacentText (Node.text a :: Node.text b :: rest) =
        mergeAdjacentText (Node.text (a ++ b) :: rest) :=
  claim1_no_adjacent_text_invariant
    [Op.insertChildrenOp [] 1 [Node.text "y"], Op.detachOp [] 0 false]
    (Node.tag "a" [] [Node.text "x", Node.tag "b" [] []])
    (by decide) (by decide)

/-- C2: detaching a child with retained children splices its child
sequence into its former position in the former parent's child sequence,
preserving relative order, and re-applies adjacent-Text-node merging at
the splice boundaries; for `<p>A<b>B</b>C</p>`, detaching `<b>` with
retained children yields `<p>ABC</p>` with a single merged Text node. -/
theorem claim2_detach_retain_children (pre post : List Node) (c : Node) :
    opDetachL pre.length true (pre ++ c :: post) =
      .ok (mergeAdjacentText (pre ++ c.childList ++ post)) ∧
    applyOp
        (Node.tag "p" []
          [Node.text "A", Node.tag "b" [] [Node.text "B"], Node.text "C"])
        (Op.detachOp [] 1 true) =
      .ok (Node.tag "p" [] [Node.text "ABC"]) := by
  constructor
  · have hg : (pre ++ c :: post)[pre.length]? = some c := by
      rw [List.getElem?_append_right (Nat.le_refl _)]
      simp
    simp only [opDetachL, hg, if_pos]
    have ht : (pre ++ c :: post).take pre.length = pre := List.take_left pre (c :: post)
    have hd : (pre ++ c :: post).drop (pre.length + 1) = post := by
      have h : pre ++ c :: post = (pre ++ [c]) ++ post := by simp
      rw [h]
      have h2 : pre.length + 1 = (pre ++ [c]).length := by simp
      rw [h2, List.drop_left]
    rw [ht, hd]
  · rfl

/-- C4: a mutation operation that raises `InvalidOperation` reports the
error synchronously at the offending call and leaves the tree exactly as
it was — no partial mutation is committed; the enumerated causes
(inserting an already-attached node, detaching the sole root without
replacement, an out-of-bounds index) all raise it. -/
theorem claim4_invalid_operation_atomicity :
    (∀ t op e, applyOp t op = .error e → applyOpState t op = t) ∧
    (∀ t, applyOp t Op.detachRootOp = .error Err.invalidOperation) ∧
    (∀ cs i args, (∃ a ∈ args, a.2 = true) →
      insertChildren cs i args = .error Err.invalidOperation) ∧
    (∀ cs i args, cs.length < i →
      insertChildren cs i args = .error Err.invalidOperation) ∧
    (∀ cs i r, cs.length ≤ i → opDetachL i r cs = .error Err.invalidOperation) := by
  refine ⟨?_, fun t => rfl, ?_, ?_, ?_⟩
  · intro t op e h
    simp [applyOpState, h]
  · intro cs i args h
    have hany : args.any (fun a => a.2) = true := by
      rw [List.any_eq_true]
      obtain ⟨a, ha, hr⟩ := h
      exact ⟨a, ha, hr⟩
    simp [insertChildren, hany]
  · intro cs i args h
    simp only [insertChildren]
    by_cases hany : args.any (fun a => a.2) = true
    · simp [hany]
    · simp only [Bool.not_eq_true] at hany
      simp [hany, h]
  · intro cs i r h
    have hg : cs[i]? = none := by
      rw [List.getElem?_eq_none_iff]
      exact h
    simp [opDetachL, hg]

/-- Witness for C4: an out-of-bounds insertion reports the error and the
tree is unchanged. -/
theorem claim4_invalid_operation_atomicity_witness :
    applyOpState (Node.tag "r" [] []) (Op.insertChildrenOp [] 5 [Node.text "x"]) =
      Node.tag "r" [] [] :=
  claim4_invalid_operation_atomicity.1 (Node.tag "r" [] [])
    (Op.insertChildrenOp [] 5 [Node.text "x"]) Err.invalidOperation rfl

/-- C5: `insert_children` raises `InvalidOperation` exactly when some
argument node is currently attached or the index is out of the current
bounds of the child sequence; otherwise the parentless nodes are inserted
at the index and Text-node merging is re-applied at both boundaries. -/
theorem claim5_insert_children_contract (cs : List Node) (i : Nat)
    (args : List (Node × Bool)) :
    ((∃ e, insertChildren cs i args = .error e) ↔
      (∃ a ∈ args, a.2 = true) ∨ cs.length < i) ∧
    ((∀ a ∈ args, a.2 = false) → i ≤ cs.length →
      insertChildren cs i args =
        .ok (mergeAdjacentText (cs.take i ++ args.map Prod.fst ++ cs.drop i))) ∧
    (∀ cs', insertChildren cs i args = .ok cs' → noAdjB cs' = true) := by
  refine ⟨?_, ?_, ?_⟩
  · constructor
    · intro h
      by_contra hc
      push_neg at hc
      have hany : args.any (fun a => a.2) = false := by
        rw [List.any_eq_false]
        intro a ha
        simp [hc.1 a ha]
      have hlen : ¬cs.length < i := Nat.not_lt.mpr hc.2
      obtain ⟨e, he⟩ := h
      simp [insertChildren, hany, hlen] at he
    · intro h
      rcases h with h1 | h2
      · have hany : args.any (fun a => a.2) = true := by
          rw [List.any_eq_true]
          obtain ⟨a, ha, hr⟩ := h1
          exact ⟨a, ha, hr⟩
        exact ⟨Err.invalidOperation, by simp [insertChildren, hany]⟩
      · refine ⟨Err.invalidOperation, ?_⟩
        simp only [insertChildren]
        by_cases hany : args.any (fun a => a.2) = true
        · simp [hany]
        · simp only [Bool.not_eq_true] at hany
          simp [hany, h2]
  · intro hargs hlen
    have hany : args.any (fun a => a.2) = false := by
      rw [List.any_eq_false]
      intro a ha
      simp [hargs a ha]
    have hl : ¬cs.length < i := Nat.not_lt.mpr hlen
    simp [insertChildren, hany, hl]
  · intro cs' h
    simp only [insertChildren] at h
    by_cases hany : args.any (fun a => a.2) = true
    · simp [hany] at h
    · simp only [Bool.not_eq_true] at hany
      rw [hany] at h
      simp only [Bool.false_eq_true, if_false] at h
      by_cases hlen : cs.length < i
      · rw [if_pos hlen] at h
        simp at h
      · rw [if_neg hlen] at h
        injection h with h2
        subst h2
        exact merge_noAdjB _

/-- Witness for C5: inserting a parentless Text node at the end boundary
merges it with the adjacent Text sibling. -/
theorem claim5_insert_children_contract_witness :
    insertChildren [Node.text "A"] 1 [(Node.text "B", false)] =
      .ok (mergeAdjacentText ([Node.text "A"].take 1 ++
        [(Node.text "B", false)].map Prod.fst ++ [Node.text "A"].drop 1)) :=
  (claim5_insert_children_contract [Node.text "A"] 1 [(Node.text "B", false)]).2.1
    (by decide) (by decide)

/-- Modelled from the spec: setting an attribute — ordered-map semantics;
an existing key's value is updated in place, a new key is appended at the
end of the insertion order. -/
def setAttribute (attrs : List (String × String)) (k v : String) :
    List (String × String) :=
  match attrs with
  | [] => [(k, v)]
  | (k0, v0) :: rest =>
      if k0 = k then (k0, v) :: rest else (k0, v0) :: setAttribute rest k v

/-- Modelled from the spec: removing an attribute by its key. -/
def removeAttribute (attrs : List (String × String)) (k : String) :
    List (String × String) :=
  attrs.filter (fun a => a.1 != k)

/-- The insertion-ordered key sequence of an attribute sequence. -/
def attrKeys (attrs : List (String × String)) : List String := attrs.map Prod.fst

/-- Escaping of one character of attribute-value character data. -/
def escapeAttrChar (c : Char) : String :=
  if c = '&' then "&amp;"
  else if c = '<' then "&lt;"
  else if c = '>' then "&gt;"
  else if c = '"' then "&quot;"
  else String.singleton c

/-- Escaping of an attribute value; values are always quoted. -/
def escapeAttrValue (s : String) : String :=
  s.data.foldl (fun acc c => acc ++ escapeAttrChar c) ""

/-- Serialization of an attribute sequence in insertion order. -/
def serializeAttrs : List (String × String) → String
  | [] => ""
  | (k, v) :: rest => " " ++ k ++ "=\"" ++ escapeAttrValue v ++ "\"" ++ serializeAttrs rest

theorem setAttribute_keys (attrs : List (String × String)) (k v : String)
    (h : k ∈ attrKeys attrs) : attrKeys (setAttribute attrs k v) = attrKeys attrs := by
  induction attrs with
  | nil => simp [attrKeys] at h
  | cons a rest ih =>
    obtain ⟨k0, v0⟩ := a
    by_cases hk : k0 = k
    · simp [setAttribute, hk, attrKeys]
    · simp only [attrKeys, List.map_cons] at h
      rcases List.mem_cons.mp h with h1 | h2
      · exact absurd h1.symm hk
      · have hr := ih h2
        simp only [attrKeys] at hr
        simp [setAttribute, hk, attrKeys, hr]

theorem setAttribute_new (attrs : List (String × String)) (k v : String)
    (h : k ∉ attrKeys attrs) : setAttribute attrs k v = attrs ++ [(k, v)] := by
  induction attrs with
  | nil => rfl
  | cons a rest ih =>
    obtain ⟨k0, v0⟩ := a
    simp only [attrKeys, List.map_cons, List.mem_cons] at h
    push_neg at h
    have hne : ¬k0 = k := fun hh => h.1 hh.symm
    simp [setAttribute, hne, ih (by simp [attrKeys, h.2])]

theorem setAttribute_nodup (attrs : List (String × String)) (k v : String)
    (h : (attrKeys attrs).Nodup) : (attrKeys (setAttribute attrs k v)).Nodup := by
  by_cases hk : k ∈ attrKeys attrs
  · rw [setAttribute_keys attrs k v hk]
    exact h
  · rw [setAttribute_new attrs k v hk]
    simp only [attrKeys, List.map_append, List.map_cons, List.map_nil]
    rw [List.nodup_append]
    exact ⟨h, List.nodup_singleton k, by simp [attrKeys] at hk; simpa [attrKeys] using hk⟩

theorem removeAttribute_not_mem (attrs : List (String × String)) (k : String) :
    k ∉ attrKeys (removeAttribute attrs k) := by
  intro h
  simp only [attrKeys, removeAttribute, List.mem_map] at h
  obtain ⟨a, ha, hk⟩ := h
  have := List.of_mem_filter ha
  simp [hk] at this

theorem map_update_id (l : List (String × String)) (k v : String)
    (h : k ∉ attrKeys l) :
    l.map (fun a => if a.1 = k then (k, v) else a) = l := by
  induction l with
  | nil => rfl
  | cons a rest ih =>
    simp only [attrKeys, List.map_cons, List.mem_cons] at h
    push_neg at h
    have hne : ¬a.1 = k := fun hh => h.1 hh.symm
    simp [hne, ih (by simp [attrKeys, h.2])]

theorem setAttribute_update (attrs : List (String × String)) (k v : String)
    (h : (attrKeys attrs).Nodup) :
    setAttribute attrs k v = attrs.map (fun a => if a.1 = k then (k, v) else a) ∨
      k ∉ attrKeys attrs := by
  by_cases hk : k ∈ attrKeys attrs
  · left
    induction attrs with
    | nil => simp [attrKeys] at hk
    | cons a rest ih =>
      obtain ⟨k0, v0⟩ := a
      simp only [attrKeys, List.map_cons, List.nodup_cons] at h
      by_cases hk0 : k0 = k
      · subst hk0
        have hrest : rest.map (fun a => if a.1 = k0 then (k0, v) else a) = rest :=
          map_update_id rest k0 v h.1
        simp [setAttribute, hrest]
      · simp only [attrKeys, List.map_cons, List.mem_cons] at hk
        rcases hk with h1 | h2
        · exact absurd h1.symm hk0
        · simp [setAttribute, hk0, ih h.2 h2]
  · right
    exact hk

/-- C8: attribute keys are unique and insertion order is preserved and
observable in serialization; setting an existing key's value changes only
that value and leaves its position unchanged, deleting and re-adding a
key moves it to the end; setting x="1", y="2", then x="9" serializes as
x="9" y="2". -/
theorem claim8_attribute_order (attrs : List (String × String)) (k v : String) :
    ((attrKeys attrs).Nodup → (attrKeys (setAttribute attrs k v)).Nodup) ∧
    (k ∈ attrKeys attrs → attrKeys (setAttribute attrs k v) = attrKeys attrs) ∧
    ((attrKeys attrs).Nodup → k ∈ attrKeys attrs →
      setAttribute attrs k v = attrs.map (fun a => if a.1 = k then (k, v) else a)) ∧
    (setAttribute (removeAttribute attrs k) k v = removeAttribute attrs k ++ [(k, v)]) ∧
    (serializeAttrs (setAttribute (setAttribute (setAttribute [] "x" "1") "y" "2") "x" "9") =
      " x=\"9\" y=\"2\"") := by
  refine ⟨fun h => setAttribute_nodup attrs k v h,
    fun h => setAttribute_keys attrs k v h, ?_, ?_, ?_⟩
  · intro h hm
    rcases setAttribute_update attrs k v h with h1 | h2
    · exact h1
    · exact absurd hm h2
  · exact setAttribute_new (removeAttribute attrs k) k v (removeAttribute_not_mem attrs k)
  · rfl

/-- Witness for C8 at concrete attribute sequences. -/
theorem claim8_attribute_order_witness :
    attrKeys (setAttribute [("x", "1"), ("y", "2")] "x" "9") =
      attrKeys [("x", "1"), ("y", "2")] :=
  (claim8_attribute_order [("x", "1"), ("y", "2")] "x" "9").2.1 (by decide)

/-- Modelled from the spec: the index of the first child Tag node with
the given name, in document order. -/
def findTagIdx (name : String) : List Node → Option Nat
  | [] => none
  | Node.tag n _ _ :: rest =>
      if n = name then some 0 else (findTagIdx name rest).map (· + 1)
  | _ :: rest => (findTagIdx name rest).map (· + 1)

/-- Modelled from the spec: the fetch-or-create query mode over a
location path of child-step name tests — walks existing matching
structure as far as possible, preferring the first match in document
order, and synthesizes Tag nodes only for the unmatched suffix of the
path.  Returns the updated tree and the fetched node. -/
def fetchOrCreate (t : Node) : List String → Node × Node
  | [] => (t, t)
  | s :: rest =>
    match t with
    | .tag n a cs =>
      match findTagIdx s cs with
      | some i =>
          match cs[i]? with
          | some c =>
              let w := fetchOrCreate c rest
              (.tag n a (cs.set i w.1), w.2)
          | none => (.tag n a cs, .tag n a cs)
      | none =>
          let w := fetchOrCreate (.tag s [] []) rest
          (.tag n a (cs ++ [w.1]), w.2)
    | other => (other, other)

theorem fetch_shape (p : List String) (n : String) (a : List (String × String))
    (cs : List Node) :
    ∃ cs', (fetchOrCreate (.tag n a cs) p).1 = .tag n a cs' := by
  cases p with
  | nil => exact ⟨cs, rfl⟩
  | cons s rest =>
    simp only [fetchOrCreate]
    cases hf : findTagIdx s cs with
    | some i =>
      simp only [hf]
      cases hg : cs[i]? with
      | some c =>
        simp only [hg]
        exact ⟨cs.set i (fetchOrCreate c rest).1, rfl⟩
      | none =>
        simp only [hg]
        exact ⟨cs, rfl⟩
    | none =>
      simp only [hf]
      exact ⟨cs ++ [(fetchOrCreate (.tag s [] []) rest).1], rfl⟩

/-- Whether a node is a Tag node carrying the given name. -/
def matchesTag (s : String) : Node → Bool
  | .tag n _ _ => n == s
  | _ => false

theorem findTagIdx_cons (s : String) (c : Node) (rest : List Node) :
    findTagIdx s (c :: rest) =
      if matchesTag s c then some 0 else (findTagIdx s rest).map (· + 1) := by
  cases c with
  | tag n a cs =>
    simp only [findTagIdx, matchesTag]
    by_cases hn : n = s
    · simp [hn]
    · simp [hn]
  | text c2 => simp [findTagIdx, matchesTag]
  | comment c2 => simp [findTagIdx, matchesTag]
  | pi t2 c2 => simp [findTagIdx, matchesTag]

theorem findTagIdx_matches (s : String) (cs : List Node) (i : Nat)
    (h : findTagIdx s cs = some i) :
    ∃ a2 cs2, cs[i]? = some (.tag s a2 cs2) := by
  induction cs generalizing i with
  | nil => simp [findTagIdx] at h
  | cons c rest ih =>
    rw [findTagIdx_cons] at h
    by_cases hm : matchesTag s c = true
    · rw [if_pos hm] at h
      injection h with h2
      subst h2
      cases c with
      | tag n a2 cs2 =>
        simp only [matchesTag, beq_iff_eq] at hm
        subst hm
        exact ⟨a2, cs2, by simp⟩
      | text c2 => simp [matchesTag] at hm
      | comment c2 => simp [matchesTag] at hm
      | pi t2 c2 => simp [matchesTag] at hm
    · rw [if_neg hm] at h
      cases hr : findTagIdx s rest with
      | some j =>
        rw [hr] at h
        simp only [Option.map_some'] at h
        injection h with h2
        subst h2
        obtain ⟨a2, cs2, hg⟩ := ih j hr
        exact ⟨a2, cs2, by simpa using hg⟩
      | none => rw [hr] at h; simp at h

theorem findTagIdx_set (s : String) (cs : List Node) (i : Nat)
    (a2 : List (String × String)) (cs2 : List Node)
    (h : findTagIdx s cs = some i) :
    findTagIdx s (cs.set i (.tag s a2 cs2)) = some i := by
  induction cs generalizing i with
  | nil => simp [findTagIdx] at h
  | cons c rest ih =>
    cases i with
    | zero =>
      rw [List.set_cons_zero, findTagIdx_cons]
      simp [matchesTag]
    | succ j =>
      rw [findTagIdx_cons] at h
      by_cases hm : matchesTag s c = true
      · rw [if_pos hm] at h
        injection h with h2
        omega
      · rw [if_neg hm] at h
        cases hr : findTagIdx s rest with
        | some j2 =>
          rw [hr] at h
          simp only [Option.map_some'] at h
          injection h with h2
          have hj : j2 = j := by omega
          rw [hj] at hr
          rw [List.set_cons_succ, findTagIdx_cons, if_neg hm, ih j hr]
          simp
        | none => rw [hr] at h; simp at h

theorem findTagIdx_append (s : String) (cs : List Node)
    (a2 : List (String × String)) (cs2 : List Node)
    (h : findTagIdx s cs = none) :
    findTagIdx s (cs ++ [.tag s a2 cs2]) = some cs.length := by
  induction cs with
  | nil => simp [findTagIdx]
  | cons c rest ih =>
    rw [findTagIdx_cons] at h
    by_cases hm : matchesTag s c = true
    · rw [if_pos hm] at h
      simp at h
    · rw [if_neg hm] at h
      have hr : findTagIdx s rest = none := by
        cases hh : findTagIdx s rest with
        | some j => rw [hh] at h; simp at h
        | none => rfl
      rw [List.cons_append, findTagIdx_cons, if_neg hm, ih hr]
      simp

theorem fetchOrCreate_idem (p : List String) (t : Node) :
    fetchOrCreate (fetchOrCreate t p).1 p = fetchOrCreate t p := by
  induction p generalizing t with
  | nil => rfl
  | cons s rest ih =>
    cases t with
    | text c2 => rfl
    | comment c2 => rfl
    | pi t2 c2 => rfl
    | tag n a cs =>
      simp only [fetchOrCreate]
      cases hf : findTagIdx s cs with
      | some i =>
        simp only [hf]
        cases hg : cs[i]? with
        | some c =>
          simp only [hg]
          obtain ⟨a2, cs2, hgm⟩ := findTagIdx_matches s cs i hf
          rw [hg] at hgm
          injection hgm with hc
          subst hc
          obtain ⟨cs2', hshape⟩ := fetch_shape rest s a2 cs2
          have hlt : i < cs.length := by
            by_contra hcon
            have : cs[i]? = none := List.getElem?_eq_none_iff.mpr (Nat.le_of_not_lt hcon)
            rw [this] at hg
            exact Option.noConfusion hg
          have h1 : findTagIdx s
              (cs.set i (fetchOrCreate (Node.tag s a2 cs2) rest).1) = some i := by
            rw [hshape]
            exact findTagIdx_set s cs i a2 cs2' hf
          have h2 : (cs.set i (fetchOrCreate (Node.tag s a2 cs2) rest).1)[i]? =
              some (fetchOrCreate (Node.tag s a2 cs2) rest).1 :=
            List.getElem?_set_self (by simpa using hlt)
          simp only [fetchOrCreate, h1, h2, ih, List.set_set]
        | none =>
          obtain ⟨a2, cs2, hgm⟩ := findTagIdx_matches s cs i hf
          rw [hg] at hgm
          exact Option.noConfusion hgm
      | none =>
        simp only [hf]
        obtain ⟨cs2', hshape⟩ := fetch_shape rest s [] []
        have h1 : findTagIdx s
            (cs ++ [(fetchOrCreate (Node.tag s [] []) rest).1]) = some cs.length := by
          rw [hshape]
          exact findTagIdx_append s cs [] cs2' hf
        have h2 : (cs ++ [(fetchOrCreate (Node.tag s [] []) rest).1])[cs.length]? =
            some (fetchOrCreate (Node.tag s [] []) rest).1 :=
          List.getElem?_concat_length _ _
        simp only [fetchOrCreate, h1, h2, ih]
        rw [List.set_append_right _ _ (Nat.le_refl _)]
        simp

/-- C9: the fetch-or-create query mode walks existing matching structure
(preferring the first match in document order) and synthesizes Tag nodes
only for the unmatched suffix: on `<root/>` with path a/b/c it produces
`<root><a><b><c/></b></a></root>`, and a second invocation with the same
path returns the existing `<c/>` without creating any new nodes — running
it on its own output is the identity. -/
theorem claim9_fetch_or_create (p : List String) (t : Node) :
    fetchOrCreate (fetchOrCreate t p).1 p = fetchOrCreate t p ∧
    fetchOrCreate (Node.tag "root" [] []) ["a", "b", "c"] =
      (Node.tag "root" []
        [Node.tag "a" [] [Node.tag "b" [] [Node.tag "c" [] []]]],
       Node.tag "c" [] []) :=
  ⟨fetchOrCreate_idem p t, rfl⟩

/-- A filter is a predicate over a single node. -/
abbrev NodeFilter := Node → Bool

/-- Modelled from the spec: the process-wide default filter set hides
Comment and ProcessingInstruction nodes from ordinary traversal. -/
def defaultFilterSet : List NodeFilter := [fun n => !(n.isCommentOrPi)]

/-- The stack of filter-set configurations; the top entry is the active
set. -/
abbrev FilterStack := List (List NodeFilter)

/-- The initial configuration stack: the default filter set. -/
def initialStack : FilterStack := [defaultFilterSet]

/-- The active filter set of a configuration stack. -/
def currentFilters : FilterStack → List NodeFilter
  | fs :: _ => fs
  | [] => defaultFilterSet

/-- Modelled from the spec: entering an `altered_default_filters` scope
pushes a filter-set configuration on the stack. -/
def enterScope (stack : FilterStack) (fs : List NodeFilter) : FilterStack :=
  fs :: stack

/-- Leaving the scope pops the configuration pushed on entry. -/
def exitScope : FilterStack → FilterStack
  | _ :: rest => rest
  | [] => []

/-- Modelled from the spec: run a body within a scoped alteration of the
default filters; the prior stack is restored on every exit path, whether
the body returns a value or an error. -/
def withAlteredFilters {ε α : Type} (stack : FilterStack) (fs : List NodeFilter)
    (body : FilterStack → Except ε α) : Except ε α × FilterStack :=
  (body (enterScope stack fs), exitScope (enterScope stack fs))

/-- Conjunctive application of the active filter set to a base node
sequence. -/
def applyFilters (stack : FilterStack) (base : List Node) : List Node :=
  base.filter (fun n => (currentFilters stack).all (fun f => f n))

mutual

/-- All descendants of a node in pre-order, depth-first document order. -/
def descendantsAll : Node → List Node
  | .tag _ _ cs => forestDescendants cs
  | _ => []

/-- The nodes of a forest and their descendants, in document order. -/
def forestDescendants : List Node → List Node
  | [] => []
  | c :: cs => c :: (descendantsAll c ++ forestDescendants cs)

end

/-- The ancestors of the node at a child-index path, innermost first. -/
def ancestorsAt (t : Node) : List Nat → List Node
  | [] => []
  | i :: p =>
    match t.childList[i]? with
    | some c => ancestorsAt c p ++ [t]
    | none => []

/-- The children traversal under a filter configuration stack. -/
def filteredChildren (stack : FilterStack) (n : Node) : List Node :=
  applyFilters stack n.childList

/-- The descendants traversal under a filter configuration stack. -/
def filteredDescendants (stack : FilterStack) (n : Node) : List Node :=
  applyFilters stack (descendantsAll n)

/-- The following-siblings traversal of the child at an index. -/
def followingSiblings (stack : FilterStack) (cs : List Node) (i : Nat) : List Node :=
  applyFilters stack (cs.drop (i + 1))

/-- The preceding-siblings traversal of the child at an index, in
reverse document order. -/
def precedingSiblings (stack : FilterStack) (cs : List Node) (i : Nat) : List Node :=
  applyFilters stack ((cs.take i).reverse)

/-- The ancestors traversal of the node at a path. -/
def filteredAncestors (stack : FilterStack) (t : Node) (p : List Nat) : List Node :=
  applyFilters stack (ancestorsAt t p)

theorem applyFilters_initial (base : List Node) :
    applyFilters initialStack base = base.filter (fun n => !(n.isCommentOrPi)) := by
  simp only [applyFilters, initialStack, currentFilters, defaultFilterSet]
  refine List.filter_congr fun n _ => ?_
  simp [List.all]

theorem applyFilters_suspended (stack : FilterStack) (base : List Node) :
    applyFilters (enterScope stack []) base = base := by
  simp only [applyFilters, enterScope, currentFilters]
  simp [List.all]

/-- C6: every traversal direction under the default filters excludes
Comment and ProcessingInstruction nodes from the yielded sequence and
from child counts; within a scoped suspension of the default filters the
full base sequence is yielded in document position; and on exit from the
scope — on every exit path, value or error — the prior configuration
stack is restored.  Includes the concrete scenario of a Comment inserted
first inside `a`. -/
theorem claim6_default_filters :
    (∀ n, filteredChildren initialStack n =
      n.childList.filter (fun c => !(c.isCommentOrPi))) ∧
    (∀ n, filteredDescendants initialStack n =
      (descendantsAll n).filter (fun c => !(c.isCommentOrPi))) ∧
    (∀ cs i, followingSiblings initialStack cs i =
      (cs.drop (i + 1)).filter (fun c => !(c.isCommentOrPi))) ∧
    (∀ cs i, precedingSiblings initialStack cs i =
      (cs.take i).reverse.filter (fun c => !(c.isCommentOrPi))) ∧
    (∀ t p, filteredAncestors initialStack t p =
      (ancestorsAt t p).filter (fun c => !(c.isCommentOrPi))) ∧
    (∀ n, (filteredChildren initialStack n).length +
      (n.childList.filter (fun c => c.isCommentOrPi)).length = n.childList.length) ∧
    (∀ stack n, filteredChildren (enterScope stack []) n = n.childList) ∧
    (∀ stack n, filteredDescendants (enterScope stack []) n = descendantsAll n) ∧
    (∀ (stack : FilterStack) (fs : List NodeFilter)
      (body : FilterStack → Except Err Unit),
      (withAlteredFilters stack fs body).2 = stack) ∧
    (filteredChildren initialStack
        (Node.tag "a" []
          [Node.comment "x", Node.tag "b" [] [], Node.text "text",
           Node.tag "c" [] []]) =
      [Node.tag "b" [] [], Node.text "text", Node.tag "c" [] []] ∧
     filteredChildren (enterScope initialStack [])
        (Node.tag "a" []
          [Node.comment "x", Node.tag "b" [] [], Node.text "text",
           Node.tag "c" [] []]) =
      [Node.comment "x", Node.tag "b" [] [], Node.text "text",
       Node.tag "c" [] []]) := by
  refine ⟨fun n => applyFilters_initial _,
    fun n => applyFilters_initial _,
    fun cs i => applyFilters_initial _,
    fun cs i => applyFilters_initial _,
    fun t p => applyFilters_initial _,
    ?_,
    fun stack n => applyFilters_suspended _ _,
    fun stack n => applyFilters_suspended _ _,
    fun stack fs body => rfl,
    by rfl, by rfl⟩
  intro n
  rw [filteredChildren, applyFilters_initial]
  have h := (List.length_eq_length_filter_add
    (l := n.childList) (fun c => !(c.isCommentOrPi))).symm
  simpa [Bool.not_not] using h

/-- Modelled from the spec: the document envelope — prologue nodes, the
unique root Tag node, and epilogue nodes, in stream order. -/
structure Document where
  prologue : List Node
  root : Node
  epilogue : List Node

/-- Escaping of one character of text character data; characters the
encoding supports directly are emitted literally. -/
def escapeChar (c : Char) : String :=
  if c = '&' then "&amp;"
  else if c = '<' then "&lt;"
  else if c = '>' then "&gt;"
  else String.singleton c

/-- Escaping of text character data. -/
def escapeData (s : String) : String :=
  s.data.foldl (fun acc c => acc ++ escapeChar c) ""

mutual

/-- Modelled from the spec: serialization of one node — the tree is
walked in document order producing a textual stream. -/
def serializeNode : Node → String
  | .text s => escapeData s
  | .comment s => "<!--" ++ s ++ "-->"
  | .pi t s => "<?" ++ t ++ " " ++ s ++ "?>"
  | .tag n a cs =>
    match cs with
    | [] => "<" ++ n ++ serializeAttrs a ++ "/>"
    | _ => "<" ++ n ++ serializeAttrs a ++ ">" ++ serializeForest cs ++ "</" ++ n ++ ">"

/-- Serialization of a node sequence in document order. -/
def serializeForest : List Node → String
  | [] => ""
  | c :: cs => serializeNode c ++ serializeForest cs

end

/-- The serialization configuration; the encoding defaults to UTF-8. -/
structure SerializationConfig where
  encoding : String

/-- The default serialization configuration. -/
def defaultConfig : SerializationConfig := ⟨"UTF-8"⟩

/-- The XML declaration for an encoding. -/
def xmlDeclaration (enc : String) : String :=
  "<?xml version=\"1.0\" encoding=\"" ++ enc ++ "\"?>"

/-- Modelled from the spec: document serialization — the XML declaration
first, then the prologue nodes, the root element subtree, and the
epilogue nodes, in that order. -/
def serializeDocument (d : Document) (cfg : SerializationConfig) : String :=
  xmlDeclaration cfg.encoding ++ serializeForest d.prologue ++
    serializeNode d.root ++ serializeForest d.epilogue

/-- The UTF-8 code units of one character. -/
def utf8Bytes (c : Char) : List Nat :=
  let n := c.toNat
  if n < 128 then [n]
  else if n < 2048 then [192 + n / 64, 128 + n % 64]
  else if n < 65536 then [224 + n / 4096, 128 + n / 64 % 64, 128 + n % 64]
  else [240 + n / 262144, 128 + n / 4096 % 64, 128 + n / 64 % 64, 128 + n % 64]

/-- The UTF-8 encoding of a string as a byte sequence. -/
def encodeUTF8 (s : String) : List Nat :=
  (s.data.map utf8Bytes).flatten

/-- Modelled from the spec: the serialized byte stream of a document,
UTF-8 encoded. -/
def serializeBytes (d : Document) (cfg : SerializationConfig) : List Nat :=
  encodeUTF8 (serializeDocument d cfg)

theorem encodeUTF8_append (a b : String) :
    encodeUTF8 (a ++ b) = encodeUTF8 a ++ encodeUTF8 b := by
  simp [encodeUTF8, String.data_append]

/-- C7: serialization output begins with the XML declaration as its first
bytes, is UTF-8 encoded under the default configuration, and consists of
the declaration, the prologue nodes, the root element subtree and the
epilogue nodes, in that order. -/
theorem claim7_serialization_stream (d : Document) (cfg : SerializationConfig) :
    serializeDocument d cfg =
      xmlDeclaration cfg.encoding ++ (serializeForest d.prologue ++
        (serializeNode d.root ++ serializeForest d.epilogue)) ∧
    serializeBytes d cfg =
      encodeUTF8 (xmlDeclaration cfg.encoding) ++
        encodeUTF8 (serializeForest d.prologue ++ serializeNode d.root ++
          serializeForest d.epilogue) ∧
    defaultConfig.encoding = "UTF-8" ∧
    xmlDeclaration defaultConfig.encoding =
      "<?xml version=\"1.0\" encoding=\"UTF-8\"?>" := by
  refine ⟨?_, ?_, rfl, rfl⟩
  · simp [serializeDocument, String.append_assoc]
  · simp only [serializeBytes, serializeDocument]
    rw [String.append_assoc, String.append_assoc, encodeUTF8_append,
      ← String.append_assoc]

/-- Modelled from the spec: a construction event emitted by the external
tokenizer and consumed by the Builder. -/
inductive Event where
  | startTag (name : String) (attributes : List (String × String))
  | endTag
  | text (content : String)
  | comment (content : String)
  | pi (target : String) (content : String)

/-- A builder stack frame: an open tag (or the bottom, document-level
frame when `tagInfo` is `none`) with its accumulated children kept in
reverse order. -/
structure Frame where
  tagInfo : Option (String × List (String × String))
  acc : List Node

/-- Modelled from the spec: appending a node under the current context;
consecutive character data merges into one Text node as it streams in. -/
def addSibling (n : Node) (acc : List Node) : List Node :=
  match n, acc with
  | .text s, .text s0 :: r => .text (s0 ++ s) :: r
  | _, _ => n :: acc

/-- Adding a node sequence one by one under the current context. -/
def addSiblings (ns : List Node) (acc : List Node) : List Node :=
  match ns with
  | [] => acc
  | n :: rest => addSiblings rest (addSibling n acc)

/-- Modelled from the spec: one step of the tree builder consuming a
construction event while maintaining the explicit open-node stack; a
mismatched end-tag is a fatal ParsingError. -/
def step (fs : List Frame) (e : Event) : Except Err (List Frame) :=
  match e, fs with
  | .startTag n a, _ => .ok (⟨some (n, a), []⟩ :: fs)
  | .endTag, ⟨some (n, a), acc⟩ :: f :: rest =>
      .ok (⟨f.tagInfo, addSibling (.tag n a acc.reverse) f.acc⟩ :: rest)
  | .endTag, _ => .error .parsingError
  | .text s, f :: rest => .ok (⟨f.tagInfo, addSibling (.text s) f.acc⟩ :: rest)
  | .comment s, f :: rest => .ok (⟨f.tagInfo, addSibling (.comment s) f.acc⟩ :: rest)
  | .pi t s, f :: rest => .ok (⟨f.tagInfo, addSibling (.pi t s) f.acc⟩ :: rest)
  | _, [] => .error .parsingError

/-- Run the builder over an event sequence. -/
def runEvents : List Event → List Frame → Except Err (List Frame)
  | [], fs => .ok fs
  | e :: evs, fs =>
    match step fs e with
    | .ok fs' => runEvents evs fs'
    | .error err => .error err

/-- Modelled from the spec: build a top-level node forest from a
construction event stream; an unclosed tag is a fatal ParsingError. -/
def build (evs : List Event) : Except Err (List Node) :=
  match runEvents evs [⟨none, []⟩] with
  | .ok [⟨none, acc⟩] => .ok acc.reverse
  | .ok _ => .error .parsingError
  | .error e => .error e

mutual

/-- Modelled from the spec: the construction events of one subtree, in
the order the serializer walks it. -/
def nodeEvents : Node → List Event
  | .tag n a cs => Event.startTag n a :: (forestEvents cs ++ [Event.endTag])
  | .text s => [Event.text s]
  | .comment s => [Event.comment s]
  | .pi t s => [Event.pi t s]

/-- The construction events of a node forest, in document order. -/
def forestEvents : List Node → List Event
  | [] => []
  | c :: cs => nodeEvents c ++ forestEvents cs

end

theorem addSibling_no_merge (n : Node) (acc : List Node)
    (h : (n.isText && headText acc) = false) : addSibling n acc = n :: acc := by
  cases n with
  | text s =>
    cases acc with
    | nil => rfl
    | cons m r =>
      cases m with
      | text s0 => simp [Node.isText, headText] at h
      | tag nm a cs => rfl
      | comment c => rfl
      | pi t c => rfl
  | tag nm a cs => cases acc <;> rfl
  | comment c => cases acc <;> rfl
  | pi t c => cases acc <;> rfl

theorem addSiblings_eq (ns acc : List Node) (h1 : noAdjB ns = true)
    (h2 : (headText ns && headText acc) = false) :
    addSiblings ns acc = ns.reverse ++ acc := by
  induction ns generalizing acc with
  | nil => simp [addSiblings]
  | cons c rest ih =>
    simp only [headText] at h2
    rw [noAdjB_cons, Bool.and_eq_true] at h1
    simp only [addSiblings]
    rw [addSibling_no_merge c acc h2]
    have hcond : (headText rest && headText (c :: acc)) = false := by
      have hh : headText (c :: acc) = c.isText := rfl
      rw [hh]
      cases hr : headText rest
      · simp
      · have h3 := h1.1
        rw [hr] at h3
        simp only [Bool.and_true, Bool.not_eq_true'] at h3
        simp [h3]
    rw [ih (c :: acc) h1.2 hcond, List.reverse_cons, List.append_assoc]
    simp

theorem runEvents_append (l1 l2 : List Event) (fs fs' : List Frame)
    (h : runEvents l1 fs = .ok fs') :
    runEvents (l1 ++ l2) fs = runEvents l2 fs' := by
  induction l1 generalizing fs with
  | nil =>
    simp only [runEvents] at h
    injection h with h2
    subst h2
    simp
  | cons e evs ih =>
    simp only [runEvents] at h ⊢
    cases hs : step fs e with
    | ok fs2 =>
      simp only [hs] at h ⊢
      exact ih fs2 h
    | error err => simp [hs] at h

mutual

theorem buildEvents_tree (t : Node) (ti : Option (String × List (String × String)))
    (acc : List Node) (rest : List Frame) (ht : treeInvB t = true) :
    runEvents (nodeEvents t) (⟨ti, acc⟩ :: rest) =
      .ok (⟨ti, addSibling t acc⟩ :: rest) := by
  cases t with
  | text s => rfl
  | comment s => rfl
  | pi t2 s => rfl
  | tag n a cs =>
    simp only [treeInvB, Bool.and_eq_true] at ht
    simp only [nodeEvents, runEvents, step]
    have hf := buildEvents_forest cs (some (n, a)) [] (⟨ti, acc⟩ :: rest) ht.2
    rw [runEvents_append _ _ _ _ hf]
    simp only [runEvents, step]
    have hs : addSiblings cs [] = cs.reverse := by
      rw [addSiblings_eq cs [] ht.1 (by simp [headText])]
      simp
    rw [hs, List.reverse_reverse]

theorem buildEvents_forest (cs : List Node)
    (ti : Option (String × List (String × String)))
    (acc : List Node) (rest : List Frame) (h : forestInvB cs = true) :
    runEvents (forestEvents cs) (⟨ti, acc⟩ :: rest) =
      .ok (⟨ti, addSiblings cs acc⟩ :: rest) := by
  cases cs with
  | nil => rfl
  | cons c cs2 =>
    simp only [forestInvB, Bool.and_eq_true] at h
    simp only [forestEvents, addSiblings]
    rw [runEvents_append _ _ _ _ (buildEvents_tree c ti acc rest h.1)]
    exact buildEvents_forest cs2 ti (addSibling c acc) rest h.2

end

theorem addSibling_nil (n : Node) : addSibling n [] = [n] := by
  cases n <;> rfl

theorem build_nodeEvents (t : Node) (ht : treeInvB t = true) :
    build (nodeEvents t) = .ok [t] := by
  simp only [build]
  rw [buildEvents_tree t none [] [] ht, addSibling_nil]
  simp

/-- Whether a character is XML whitespace. -/
def isWsChar (c : Char) : Bool :=
  c == ' ' || c == '\t' || c == '\n' || c == '\r'

/-- Modelled from the spec: the whitespace reduction rule — collapse each
run of whitespace characters to a single space. -/
def collapseChars : List Char → List Char
  | [] => []
  | [c] => if isWsChar c then [' '] else [c]
  | c1 :: c2 :: rest =>
    if isWsChar c1 && isWsChar c2 then collapseChars (c2 :: rest)
    else (if isWsChar c1 then ' ' else c1) :: collapseChars (c2 :: rest)

/-- The whitespace reduction of a string. -/
def collapseWs (s : String) : String := ⟨collapseChars s.data⟩

/-- Whether the head of a character list is whitespace. -/
def headWs : List Char → Bool
  | c :: _ => isWsChar c
  | [] => false

/-- No two adjacent characters are both whitespace. -/
def noAdjWs : List Char → Bool
  | c1 :: c2 :: rest => !(isWsChar c1 && isWsChar c2) && noAdjWs (c2 :: rest)
  | _ => true

/-- A character that is whitespace is a plain space. -/
def wsCanon (c : Char) : Bool := !(isWsChar c) || c == ' '

/-- Every whitespace character of the list is a plain space. -/
def allWsSpace (l : List Char) : Bool := l.all wsCanon

theorem collapse_headWs (c : Char) (rest : List Char) :
    headWs (collapseChars (c :: rest)) = isWsChar c := by
  induction rest generalizing c with
  | nil =>
    simp only [collapseChars]
    by_cases h : isWsChar c = true
    · rw [if_pos h, h]
      decide
    · rw [if_neg h]
      rfl
  | cons c2 rest2 ih =>
    simp only [collapseChars]
    by_cases h : (isWsChar c && isWsChar c2) = true
    · rw [if_pos h, ih c2]
      simp only [Bool.and_eq_true] at h
      rw [h.1, h.2]
    · rw [if_neg h]
      by_cases hc : isWsChar c = true
      · rw [if_pos hc, hc]
        simp only [headWs]
        decide
      · rw [if_neg hc]
        rfl

theorem noAdjWs_cons_cons (c1 c2 : Char) (rest : List Char) :
    noAdjWs (c1 :: c2 :: rest) =
      (!(isWsChar c1 && isWsChar c2) && noAdjWs (c2 :: rest)) := rfl

theorem collapse_norm (l : List Char) :
    noAdjWs (collapseChars l) = true ∧ allWsSpace (collapseChars l) = true := by
  induction l with
  | nil => exact ⟨rfl, rfl⟩
  | cons c1 tail ih =>
    cases tail with
    | nil =>
      simp only [collapseChars]
      by_cases h : isWsChar c1 = true
      · rw [if_pos h]
        exact ⟨rfl, by decide⟩
      · rw [if_neg h]
        refine ⟨rfl, ?_⟩
        simp only [Bool.not_eq_true] at h
        simp [allWsSpace, wsCanon, h]
    | cons c2 rest =>
      simp only [collapseChars]
      by_cases h : (isWsChar c1 && isWsChar c2) = true
      · rw [if_pos h]
        exact ih
      · rw [if_neg h]
        have hna : ∀ x : Char, isWsChar x = false →
            noAdjWs (x :: collapseChars (c2 :: rest)) = true := by
          intro x hx
          cases hcc : collapseChars (c2 :: rest) with
          | nil => rfl
          | cons y ys =>
            rw [noAdjWs_cons_cons, hx]
            have hys : noAdjWs (y :: ys) = true := by
              have h2 := ih.1
              rwa [hcc] at h2
            simp [hys]
        by_cases hc1 : isWsChar c1 = true
        · rw [if_pos hc1]
          have hc2 : isWsChar c2 = false := by
            cases hh : isWsChar c2
            · rfl
            · rw [hc1, hh] at h
              simp at h
          refine ⟨?_, ?_⟩
          · cases hcc : collapseChars (c2 :: rest) with
            | nil => rfl
            | cons y ys =>
              have hy : isWsChar y = isWsChar c2 := by
                have hh := collapse_headWs c2 rest
                rw [hcc] at hh
                simpa [headWs] using hh
              rw [noAdjWs_cons_cons, hy, hc2]
              have hys : noAdjWs (y :: ys) = true := by
                have h2 := ih.1
                rwa [hcc] at h2
              simp [hys]
          · simp only [allWsSpace, List.all_cons, Bool.and_eq_true]
            refine ⟨by decide, ?_⟩
            have h2 := ih.2
            simpa [allWsSpace] using h2
        · rw [if_neg hc1]
          simp only [Bool.not_eq_true] at hc1
          refine ⟨hna c1 hc1, ?_⟩
          simp only [allWsSpace, List.all_cons, Bool.and_eq_true]
          refine ⟨by simp [wsCanon, hc1], ?_⟩
          have h2 := ih.2
          simpa [allWsSpace] using h2

theorem collapse_of_norm (l : List Char) (h1 : noAdjWs l = true)
    (h2 : allWsSpace l = true) : collapseChars l = l := by
  induction l with
  | nil => rfl
  | cons c1 tail ih =>
    cases tail with
    | nil =>
      simp only [collapseChars]
      by_cases hc : isWsChar c1 = true
      · rw [if_pos hc]
        simp only [allWsSpace, List.all_cons, List.all_nil, Bool.and_true,
          wsCanon, hc, Bool.not_true, Bool.false_or, beq_iff_eq] at h2
        rw [h2]
      · rw [if_neg hc]
    | cons c2 rest =>
      rw [noAdjWs_cons_cons, Bool.and_eq_true] at h1
      simp only [allWsSpace, List.all_cons, Bool.and_eq_true] at h2
      simp only [collapseChars]
      have hne : ¬((isWsChar c1 && isWsChar c2) = true) := by
        intro hcon
        rw [hcon] at h1
        simp at h1
      rw [if_neg hne]
      have hrest : collapseChars (c2 :: rest) = c2 :: rest := by
        refine ih h1.2 ?_
        simp only [allWsSpace, List.all_cons, Bool.and_eq_true]
        exact ⟨h2.2.1, h2.2.2⟩
      rw [hrest]
      by_cases hc : isWsChar c1 = true
      · have hsp : c1 = ' ' := by
          have hw := h2.1
          simp only [wsCanon, hc, Bool.not_true, Bool.false_or, beq_iff_eq] at hw
          exact hw
        rw [if_pos hc, hsp]
      · rw [if_neg hc]

theorem collapseChars_idem (l : List Char) :
    collapseChars (collapseChars l) = collapseChars l :=
  collapse_of_norm _ (collapse_norm l).1 (collapse_norm l).2

theorem collapseWs_idem (s : String) : collapseWs (collapseWs s) = collapseWs s := by
  simp only [collapseWs]
  exact congrArg String.mk (collapseChars_idem s.data)

mutual

/-- Modelled from the spec: whitespace reduction over a tree — the
content of every Text node is collapsed under the reduction rule. -/
def reduceTree : Node → Node
  | .tag n a cs => .tag n a (reduceForest cs)
  | .text s => .text (collapseWs s)
  | .comment s => .comment s
  | .pi t s => .pi t s

/-- Whitespace reduction over a forest. -/
def reduceForest : List Node → List Node
  | [] => []
  | c :: cs => reduceTree c :: reduceForest cs

end

theorem reduce_isText (c : Node) : (reduceTree c).isText = c.isText := by
  cases c <;> rfl

theorem reduceForest_headText (cs : List Node) :
    headText (reduceForest cs) = headText cs := by
  cases cs with
  | nil => rfl
  | cons c rest => simp [reduceForest, headText, reduce_isText]

theorem reduce_noAdjB (cs : List Node) (h : noAdjB cs = true) :
    noAdjB (reduceForest cs) = true := by
  induction cs with
  | nil => rfl
  | cons c rest ih =>
    rw [noAdjB_cons, Bool.and_eq_true] at h
    simp only [reduceForest]
    rw [noAdjB_cons, Bool.and_eq_true]
    refine ⟨?_, ih h.2⟩
    rw [reduce_isText, reduceForest_headText]
    exact h.1

mutual

theorem reduce_treeInvB (t : Node) (ht : treeInvB t = true) :
    treeInvB (reduceTree t) = true := by
  cases t with
  | text s => rfl
  | comment s => rfl
  | pi t2 s => rfl
  | tag n a cs =>
    simp only [treeInvB, Bool.and_eq_true] at ht
    simp only [reduceTree, treeInvB, Bool.and_eq_true]
    exact ⟨reduce_noAdjB cs ht.1, reduce_forestInvB cs ht.2⟩

theorem reduce_forestInvB (cs : List Node) (h : forestInvB cs = true) :
    forestInvB (reduceForest cs) = true := by
  cases cs with
  | nil => rfl
  | cons c rest =>
    simp only [forestInvB, Bool.and_eq_true] at h
    simp only [reduceForest, forestInvB, Bool.and_eq_true]
    exact ⟨reduce_treeInvB c h.1, reduce_forestInvB rest h.2⟩

end

mutual

theorem reduceTree_idem (t : Node) : reduceTree (reduceTree t) = reduceTree t := by
  cases t with
  | text s => simp [reduceTree, collapseWs_idem]
  | comment s => rfl
  | pi t2 s => rfl
  | tag n a cs => simp [reduceTree, reduceForest_idem cs]

theorem reduceForest_idem (cs : List Node) :
    reduceForest (reduceForest cs) = reduceForest cs := by
  cases cs with
  | nil => rfl
  | cons c rest => simp [reduceForest, reduceTree_idem c, reduceForest_idem rest]

end

/-- Modelled from the spec: normalized serialization — the tree is
whitespace-reduced under the reduction policy and then walked, emitting
its construction-event stream. -/
def serializeNormalized (t : Node) : List Event :=
  nodeEvents (reduceTree t)

/-- Modelled from the spec: parsing with the reduction policy re-applied
— the builder materializes the forest and whitespace reduction is applied
to it. -/
def parseWithReduction (evs : List Event) : Except Err (List Node) :=
  match build evs with
  | .ok ns => .ok (reduceForest ns)
  | .error e => .error e

/-- C3: serializing a tree under the whitespace-reduction policy, parsing
the result with the same policy re-applied, and serializing again yields
the same stream: the parse of the normalized serialization is exactly the
normalized tree, and the cycle stabilizes after one normalization pass. -/
theorem claim3_round_trip_idempotence (t : Node) (ht : treeInvB t = true) :
    parseWithReduction (serializeNormalized t) = .ok [reduceTree t] ∧
    serializeNormalized (reduceTree t) = serializeNormalized t := by
  constructor
  · simp only [parseWithReduction, serializeNormalized]
    rw [build_nodeEvents (reduceTree t) (reduce_treeInvB t ht)]
    simp [reduceForest, reduceTree_idem]
  · simp only [serializeNormalized, reduceTree_idem]

/-- Witness for C3 at a concrete tree with collapsible whitespace. -/
theorem claim3_round_trip_idempotence_witness :
    parseWithReduction (serializeNormalized
        (Node.tag "a" [] [Node.text "x  y", Node.tag "b" [] [], Node.text " z "])) =
      .ok [reduceTree
        (Node.tag "a" [] [Node.text "x  y", Node.tag "b" [] [], Node.text " z "])] ∧
    serializeNormalized (reduceTree
        (Node.tag "a" [] [Node.text "x  y", Node.tag "b" [] [], Node.text " z "])) =
      serializeNormalized
        (Node.tag "a" [] [Node.text "x  y", Node.tag "b" [] [], Node.text " z "]) :=
  claim3_round_trip_idempotence
    (Node.tag "a" [] [Node.text "x  y", Node.tag "b" [] [], Node.text " z "])
    (by rfl)

mutual

/-- Modelled from the spec: cloning — a deep clone duplicates the full
subtree by value (attributes and payload copied); a shallow clone of a
Tag node gets an empty child sequence. -/
def cloneNode (deep : Bool) : Node → Node
  | .tag n a cs => .tag n a (if deep then cloneForest cs else [])
  | .text s => .text s
  | .comment s => .comment s
  | .pi t s => .pi t s

/-- Deep clone of a forest. -/
def cloneForest : List Node → List Node
  | [] => []
  | c :: cs => cloneNode true c :: cloneForest cs

end

mutual

theorem cloneNode_deep_eq (t : Node) : cloneNode true t = t := by
  cases t with
  | tag n a cs => simp [cloneNode, cloneForest_eq cs]
  | text s => rfl
  | comment s => rfl
  | pi t2 s => rfl

theorem cloneForest_eq (cs : List Node) : cloneForest cs = cs := by
  cases cs with
  | nil => rfl
  | cons c rest => simp [cloneForest, cloneNode_deep_eq c, cloneForest_eq rest]

end

/-- Modelled from the spec: cloning a Document duplicates the prologue,
the root subtree and the epilogue by value. -/
def cloneDocument (d : Document) : Document :=
  ⟨cloneForest d.prologue, cloneNode true d.root, cloneForest d.epilogue⟩

/-- Modelled from the spec: classify a parsed top-level node forest into
the document envelope — the prologue Comment/ProcessingInstruction nodes,
exactly one root Tag node, and the epilogue nodes. -/
def toDocument (ns : List Node) : Except Err Document :=
  let pro := ns.takeWhile (fun n => n.isCommentOrPi)
  match ns.drop pro.length with
  | rt :: rest =>
      if rt.isTag && rest.all (fun n => n.isCommentOrPi) then
        .ok ⟨pro, rt, rest⟩
      else .error .parsingError
  | [] => .error .parsingError

/-- Modelled from the spec: parse a construction event stream into a
Document. -/
def parseDocument (evs : List Event) : Except Err Document :=
  match build evs with
  | .ok ns => toDocument ns
  | .error e => .error e

theorem toDocument_prologue (ns : List Node) (d : Document)
    (h : toDocument ns = .ok d) :
    d.prologue.all (fun n => n.isCommentOrPi) = true := by
  simp only [toDocument] at h
  cases hd : ns.drop (ns.takeWhile (fun n => n.isCommentOrPi)).length with
  | nil => rw [hd] at h; simp at h
  | cons rt rest =>
    simp only [hd] at h
    by_cases hc : (rt.isTag && rest.all (fun n => n.isCommentOrPi)) = true
    · rw [if_pos hc] at h
      injection h with h2
      subst h2
      exact List.all_takeWhile
    · rw [if_neg hc] at h
      simp at h

/-- C10: the comment and processing-instruction nodes appearing before the
root node of a parsed stream persist in the Document instance, in every
clone of it, and in its serializations, even though default traversal
shadows them. -/
theorem claim10_prologue_persistence (evs : List Event) (d : Document)
    (h : parseDocument evs = .ok d) :
    d.prologue.all (fun n => n.isCommentOrPi) = true ∧
    (cloneDocument d).prologue = d.prologue ∧
    serializeDocument (cloneDocument d) defaultConfig =
      xmlDeclaration "UTF-8" ++ serializeForest d.prologue ++
        serializeNode d.root ++ serializeForest d.epilogue ∧
    applyFilters initialStack d.prologue = [] := by
  simp only [parseDocument] at h
  cases hb : build evs with
  | ok ns =>
    rw [hb] at h
    have hall := toDocument_prologue ns d h
    refine ⟨hall, cloneForest_eq d.prologue, ?_, ?_⟩
    · simp only [cloneDocument, serializeDocument, cloneForest_eq,
        cloneNode_deep_eq, defaultConfig]
    · rw [applyFilters_initial]
      refine List.filter_eq_nil_iff.mpr fun n hn => ?_
      rw [List.all_eq_true] at hall
      simp [hall n hn]
  | error e => rw [hb] at h; simp at h

/-- Witness for C10 at a concrete stream with a pre-root comment and
processing instruction. -/
theorem claim10_prologue_persistence_witness :
    (⟨[Node.comment "c", Node.pi "t" "x"], Node.tag "r" [] [], []⟩ :
        Document).prologue.all (fun n => n.isCommentOrPi) = true ∧
    (cloneDocument ⟨[Node.comment "c", Node.pi "t" "x"], Node.tag "r" [] [], []⟩).prologue =
      (⟨[Node.comment "c", Node.pi "t" "x"], Node.tag "r" [] [], []⟩ : Document).prologue ∧
    serializeDocument
        (cloneDocument ⟨[Node.comment "c", Node.pi "t" "x"], Node.tag "r" [] [], []⟩)
        defaultConfig =
      xmlDeclaration "UTF-8" ++
        serializeForest (⟨[Node.comment "c", Node.pi "t" "x"],
          Node.tag "r" [] [], []⟩ : Document).prologue ++
        serializeNode (⟨[Node.comment "c", Node.pi "t" "x"],
          Node.tag "r" [] [], []⟩ : Document).root ++
        serializeForest (⟨[Node.comment "c", Node.pi "t" "x"],
          Node.tag "r" [] [], []⟩ : Document).epilogue ∧
    applyFilters initialStack
        (⟨[Node.comment "c", Node.pi "t" "x"], Node.tag "r" [] [], []⟩ :
          Document).prologue = [] :=
  claim10_prologue_persistence
    [Event.comment "c", Event.pi "t" "x", Event.startTag "r" [], Event.endTag]
    ⟨[Node.comment "c", Node.pi "t" "x"], Node.tag "r" [] [], []⟩ (by rfl)

end Delb
